import Mathlib

/-!
Shallow embedding of `src/main.py`, an expense-tracker service backed by a
single SQLite database with two tables (`expenses`, `users`) and two indexes.

Modelling conventions:
* A `Store` models the state of the database file.  The `expenses` table is a
  list of rows together with the AUTOINCREMENT counter `nextId` (SQLite
  assigns strictly increasing rowids and, with AUTOINCREMENT, never reuses an
  id of a deleted row).  The `users` table is a list of rows; its unused
  integer primary key column is omitted since no operation reads it, and the
  UNIQUE constraint on `name` is carried as a well-formedness invariant.
  `tables` and `indexes` record the names of schema objects, so that
  `CREATE ... IF NOT EXISTS` becomes insert-if-absent.
* SQLite REAL amounts are modelled as exact rationals `ℚ`.
* Python's `float(amount)` call is modelled by passing the parse outcome as an
  `Option ℚ`: `some a` when `amount` parses to the number `a`, `none` when
  `float` raises `ValueError` ("could not convert string to float").
* Each handler catches exceptions and returns a status dict; this becomes the
  result type `Res`.  Query handlers (`list_expenses`, `summarize`) cannot
  fail in the model (only storage-engine failures could make them fail), so
  they return their payload directly.
* SQLite compares TEXT with the BINARY collation (byte order), which on UTF-8
  agrees with the codepoint-lexicographic order of Lean's `String` `≤`.
-/

/-- A row of the `expenses` table. -/
structure Expense where
  id : Nat
  date : String
  amount : ℚ
  category : String
  subcategory : String
  note : String
deriving Repr, DecidableEq

/-- A row of the `users` table (the unused `id` column is omitted). -/
structure User where
  name : String
  credit : ℚ
deriving Repr, DecidableEq

/-- State of the database file. -/
structure Store where
  expenses : List Expense
  nextId : Nat
  users : List User
  tables : List String
  indexes : List String
deriving Repr, DecidableEq

/-- The result dict returned by a handler: `{"status":"ok", ...}` with payload
`α`, or `{"status":"error", "error": msg}`. -/
inductive Res (α : Type) where
  | ok : α → Res α
  | err : String → Res α
deriving Repr, DecidableEq

/-- Message of the `ValueError` raised by `float` on unparseable input. -/
def floatErr : String := "could not convert string to float"

/-- A brand-new database file: no rows, rowids start at 1, no schema objects. -/
def emptyStore : Store := ⟨[], 1, [], [], []⟩

/-- `CREATE ... IF NOT EXISTS name`: add `name` unless already present. -/
def createIfAbsent (l : List String) (x : String) : List String :=
  if x ∈ l then l else l ++ [x]

/-- `INSERT OR IGNORE INTO users (name, credit) VALUES (name, c)`:
a no-op when a row with this name exists (UNIQUE constraint), otherwise
appends a fresh row. -/
def upsertUser (s : Store) (name : String) (c : ℚ) : Store :=
  if s.users.any (fun u => u.name = name) then s
  else { s with users := s.users ++ [⟨name, c⟩] }

/-- Increment applied to one user row if its name matches. -/
def incrRow (name : String) (a : ℚ) (u : User) : User :=
  if u.name = name then { u with credit := u.credit + a } else u

/-- `UPDATE users SET credit = credit + a WHERE name = name`. -/
def incrUser (s : Store) (name : String) (a : ℚ) : Store :=
  { s with users := s.users.map (incrRow name a) }

/-- `SELECT credit FROM users WHERE name=?` followed by `fetchone`. -/
def lookupUser (s : Store) (name : String) : Option User :=
  s.users.find? (fun u => u.name = name)

/-- `init_db`: create the two tables and two indexes if absent and ensure the
bootstrap `"default"` user exists (src/main.py lines 17-49). -/
def init_db (s : Store) : Store :=
  let s1 := { s with tables := createIfAbsent (createIfAbsent s.tables "expenses") "users" }
  let s2 := upsertUser s1 "default" 0
  { s2 with indexes := createIfAbsent (createIfAbsent s2.indexes "idx_date") "idx_cat" }

/-- `add_expense` (src/main.py lines 59-75): `float(amount)` is evaluated
before the INSERT runs, so an unparseable amount raises first and the handler
returns the error with nothing written; otherwise one row is inserted with the
next AUTOINCREMENT id and `lastrowid` is returned. -/
def add_expense (s : Store) (date : String) (amount : Option ℚ) (category : String)
    (subcategory : String := "") (note : String := "") : Store × Res Nat :=
  match amount with
  | none => (s, .err floatErr)
  | some a =>
      ({ s with
          expenses := s.expenses ++ [⟨s.nextId, date, a, category, subcategory, note⟩],
          nextId := s.nextId + 1 },
       .ok s.nextId)

/-- Ordering used by `ORDER BY date DESC, id DESC`: `a` may precede `b`. -/
def expOrd (a b : Expense) : Prop :=
  b.date < a.date ∨ (a.date = b.date ∧ b.id ≤ a.id)

instance : DecidableRel expOrd := fun a b => by
  unfold expOrd; infer_instance

/-- Row filter of `WHERE date BETWEEN ? AND ?` (inclusive, TEXT comparison). -/
def inRange (lo hi : String) (e : Expense) : Bool :=
  decide (lo ≤ e.date) && decide (e.date ≤ hi)

/-- `list_expenses` (src/main.py lines 81-100): rows with
`date BETWEEN start_date AND end_date`, ordered by `date DESC, id DESC`. -/
def list_expenses (s : Store) (start_date end_date : String) : List Expense :=
  List.insertionSort expOrd (s.expenses.filter (inRange start_date end_date))

/-- A row of the `summarize` result set. -/
structure SummaryRow where
  category : String
  total_amount : ℚ
  count : Nat
deriving Repr, DecidableEq

/-- Ordering used by `ORDER BY total_amount DESC`. -/
def sumOrd (a b : SummaryRow) : Prop := b.total_amount ≤ a.total_amount

instance : DecidableRel sumOrd := fun a b => by
  unfold sumOrd; infer_instance

/-- `summarize` (src/main.py lines 106-130): rows in the inclusive date range,
further filtered by `AND category = ?` only when the Python value `category`
is truthy (not `None` and not `""`), grouped by category with `SUM(amount)`
and `COUNT(*)`, ordered by total descending. -/
def summarize (s : Store) (start_date end_date : String)
    (category : Option String := none) : List SummaryRow :=
  let base := s.expenses.filter (inRange start_date end_date)
  let rows := match category with
    | some c => if c = "" then base else base.filter (fun e => decide (e.category = c))
    | none => base
  let cats := (rows.map (fun e => e.category)).dedup
  List.insertionSort sumOrd (cats.map (fun c =>
    ⟨c, ((rows.filter (fun e => decide (e.category = c))).map (fun e => e.amount)).sum,
      (rows.filter (fun e => decide (e.category = c))).length⟩))

/-- Effect of the UPDATE of `edit_expense` on one row: a full field replace
when the id matches, identity otherwise. -/
def editRow (id : Nat) (date : String) (a : ℚ) (category subcategory note : String)
    (e : Expense) : Expense :=
  if e.id = id then ⟨id, date, a, category, subcategory, note⟩ else e

/-- `edit_expense` (src/main.py lines 136-157): `float(amount)` is evaluated
before the UPDATE runs; the UPDATE replaces every field of each row matching
the id, and afterwards `rowcount == 0` yields the `"ID not found"` error. -/
def edit_expense (s : Store) (id : Nat) (date : String) (amount : Option ℚ)
    (category : String) (subcategory : String := "") (note : String := "") :
    Store × Res Unit :=
  match amount with
  | none => (s, .err floatErr)
  | some a =>
      let s' := { s with
        expenses := s.expenses.map (editRow id date a category subcategory note) }
      if s.expenses.any (fun e => e.id = id) then (s', .ok ())
      else (s', .err "ID not found")

/-- `delete_expense` (src/main.py lines 163-177): `DELETE FROM expenses WHERE
id=?`, then `rowcount == 0` yields the `"ID not found"` error. -/
def delete_expense (s : Store) (id : Nat) : Store × Res Unit :=
  let s' := { s with expenses := s.expenses.filter (fun e => decide (e.id ≠ id)) }
  if s.expenses.any (fun e => e.id = id) then (s', .ok ())
  else (s', .err "ID not found")

/-- `add_credit` (src/main.py lines 183-203): INSERT OR IGNORE the user row,
then `float(amount)` is evaluated while building the UPDATE's parameters — if
it raises, `conn.commit()` is never reached and closing the connection rolls
the uncommitted upsert back, so the net store is unchanged; otherwise the
increment is applied and the freshly selected balance returned.  The
unreachable `fetchone`-returns-`None` case (the row always exists after the
upsert) likewise rolls back. -/
def add_credit (s : Store) (amount : Option ℚ) (user_name : String := "default") :
    Store × Res ℚ :=
  let s1 := upsertUser s user_name 0
  match amount with
  | none => (s, .err floatErr)
  | some a =>
      let s2 := incrUser s1 user_name a
      match lookupUser s2 user_name with
      | some u => (s2, .ok u.credit)
      | none => (s, .err "NoneType object is not subscriptable")

/-- Well-formedness of a store, maintained by SQLite itself: expense rowids
are below the AUTOINCREMENT counter and pairwise distinct (PRIMARY KEY), and
user names are pairwise distinct (UNIQUE). -/
def WF (s : Store) : Prop :=
  (∀ e ∈ s.expenses, e.id < s.nextId) ∧
  (s.expenses.map (fun e => e.id)).Nodup ∧
  (s.users.map (fun u => u.name)).Nodup

instance : DecidablePred WF := fun s => by
  unfold WF; infer_instance

/-! ### Basic lemmas about the embedded operations -/

theorem incrRow_name (u : String) (a : ℚ) (x : User) : (incrRow u a x).name = x.name := by
  unfold incrRow; split <;> rfl

theorem find?_map_incrRow (l : List User) (u : String) (a : ℚ) :
    (l.map (incrRow u a)).find? (fun x => x.name = u)
      = (l.find? (fun x => x.name = u)).map (incrRow u a) := by
  induction l with
  | nil => rfl
  | cons x t ih =>
      by_cases h : x.name = u
      · simp [List.find?_cons, incrRow_name, h]
      · simp [List.find?_cons, incrRow_name, h, ih]

theorem lookupUser_incrUser (s : Store) (u : String) (a : ℚ) :
    lookupUser (incrUser s u a) u = (lookupUser s u).map (incrRow u a) := by
  unfold lookupUser incrUser
  exact find?_map_incrRow s.users u a

theorem lookupUser_some_name {s : Store} {u : String} {x : User}
    (h : lookupUser s u = some x) : x.name = u := by
  unfold lookupUser at h
  have := List.find?_some h
  simpa using this

theorem lookupUser_eq_none_iff (s : Store) (u : String) :
    lookupUser s u = none ↔ ∀ x ∈ s.users, x.name ≠ u := by
  unfold lookupUser
  simp [List.find?_eq_none]

theorem lookupUser_upsertUser_self (s : Store) (u : String) (c : ℚ) :
    lookupUser (upsertUser s u c) u = some ((lookupUser s u).getD ⟨u, c⟩) := by
  unfold upsertUser
  by_cases h : s.users.any (fun x => x.name = u)
  · rw [if_pos h]
    have hx : ∃ x, lookupUser s u = some x := by
      rw [List.any_eq_true] at h
      obtain ⟨x, hx, hpx⟩ := h
      exact Option.isSome_iff_exists.mp (List.find?_isSome.mpr ⟨x, hx, hpx⟩)
    obtain ⟨x, hx⟩ := hx
    rw [hx]; rfl
  · rw [if_neg h]
    have hnone : lookupUser s u = none := by
      rw [lookupUser_eq_none_iff]
      intro x hx hxu
      exact h (List.any_eq_true.mpr ⟨x, hx, by simp [hxu]⟩)
    unfold lookupUser at hnone ⊢
    simp [List.find?_append, hnone]

instance : IsTotal Expense expOrd where
  total a b := by
    unfold expOrd
    rcases lt_trichotomy a.date b.date with h | h | h
    · exact Or.inr (Or.inl h)
    · rcases Nat.le_total b.id a.id with h2 | h2
      · exact Or.inl (Or.inr ⟨h, h2⟩)
      · exact Or.inr (Or.inr ⟨h.symm, h2⟩)
    · exact Or.inl (Or.inl h)

instance : IsTrans Expense expOrd where
  trans a b c hab hbc := by
    unfold expOrd at *
    rcases hab with h1 | ⟨h1, h1'⟩ <;> rcases hbc with h2 | ⟨h2, h2'⟩
    · exact Or.inl (h2.trans h1)
    · exact Or.inl (h2 ▸ h1)
    · exact Or.inl (lt_of_lt_of_le h2 (le_of_eq h1.symm))
    · exact Or.inr ⟨h1.trans h2, h2'.trans h1'⟩

instance : IsTotal SummaryRow sumOrd where
  total a b := by unfold sumOrd; exact le_total b.total_amount a.total_amount

instance : IsTrans SummaryRow sumOrd where
  trans a b c hab hbc := by unfold sumOrd at *; exact hbc.trans hab

/-! ### Claim theorems -/

/-- C8: when `amount` is not parseable as a decimal number (`float` raises),
`add_expense`, `edit_expense` and `add_credit` each return an error result and
leave the store entirely unchanged: no expense row is inserted or modified and
no user row is created or incremented (for `add_credit` the uncommitted upsert
is rolled back when the connection closes). -/
theorem unparseable_amount_no_mutation (s : Store) (d c sub note u : String) (i : Nat) :
    add_expense s d none c sub note = (s, Res.err floatErr) ∧
    edit_expense s i d none c sub note = (s, Res.err floatErr) ∧
    add_credit s none u = (s, Res.err floatErr) :=
  ⟨rfl, rfl, rfl⟩

/-- C10: `summarize` applies the category filter only for truthy values, so an
empty-string category behaves exactly as if no filter had been supplied; and
whenever a non-empty (exact-match) filter `c` is applied, every returned group
has category `c`, so groups of rows stored with the empty-string category can
never be selected by an exact-match filter. -/
theorem summarize_empty_category_filter (s : Store) (lo hi c : String) :
    summarize s lo hi (some "") = summarize s lo hi none ∧
    (c ≠ "" → ∀ g ∈ summarize s lo hi (some c), g.category = c) := by
  constructor
  · simp [summarize]
  · intro hc g hg
    simp only [summarize, if_neg hc] at hg
    have hg' := (List.perm_insertionSort sumOrd _).mem_iff.mp hg
    rw [List.mem_map] at hg'
    obtain ⟨c', hc', rfl⟩ := hg'
    rw [List.mem_dedup, List.mem_map] at hc'
    obtain ⟨e, he, rfl⟩ := hc'
    rw [List.mem_filter] at he
    simpa using he.2

/-- The balance `add_credit` returns: prior balance (0 for an unseen user)
plus the parsed amount. -/
theorem add_credit_result (s : Store) (a : ℚ) (u : String) :
    (add_credit s (some a) u).2
      = Res.ok (((lookupUser s u).map (fun x => x.credit)).getD 0 + a) := by
  unfold add_credit
  have h1 := lookupUser_upsertUser_self s u 0
  have h2 := lookupUser_incrUser (upsertUser s u 0) u a
  rw [h1] at h2
  cases hl : lookupUser s u with
  | none =>
      rw [hl] at h2
      simp only [Option.getD_none, Option.map_some] at h2
      simp only [h2, hl]
      simp [incrRow]
  | some x =>
      have hx : x.name = u := lookupUser_some_name hl
      rw [hl] at h2
      simp only [Option.getD_some, Option.map_some] at h2
      simp only [h2, hl]
      simp [incrRow, hx]

/-- C2: for every parseable amount and every user name, `add_credit` returns
the user's prior balance (0 when the name has never been seen, in which case a
row with balance 0 is created before the increment) plus the amount; on a
fresh store `add_credit(5,"default")` returns credit 5 and a subsequent
`add_credit(3,"default")` returns credit 8. -/
theorem add_credit_upsert_increment (s : Store) (a : ℚ) (u : String) :
    (add_credit s (some a) u).2
      = Res.ok (((lookupUser s u).map (fun x => x.credit)).getD 0 + a) ∧
    ((lookupUser (add_credit s (some a) u).1 u).map (fun x => x.credit))
      = some (((lookupUser s u).map (fun x => x.credit)).getD 0 + a) ∧
    (add_credit (init_db emptyStore) (some 5) "default").2 = Res.ok 5 ∧
    (add_credit (add_credit (init_db emptyStore) (some 5) "default").1 (some 3) "default").2
      = Res.ok 8 := by
  refine ⟨add_credit_result s a u, ?_, ?_, ?_⟩
  · have h1 := lookupUser_upsertUser_self s u 0
    have h2 := lookupUser_incrUser (upsertUser s u 0) u a
    rw [h1] at h2
    unfold add_credit
    cases hl : lookupUser s u with
    | none =>
        rw [hl] at h2
        simp only [Option.getD_none, Option.map_some] at h2
        simp only [h2, hl]
        simp only [Option.map_eq_some', Option.map_none, Option.getD_none]
        exact ⟨_, h2, by simp [incrRow]⟩
    | some x =>
        have hx : x.name = u := lookupUser_some_name hl
        rw [hl] at h2
        simp only [Option.getD_some, Option.map_some] at h2
        simp only [h2, hl]
        simp only [Option.map_eq_some', Option.map_some, Option.getD_some]
        exact ⟨_, h2, by simp [incrRow, hx]⟩
  · have h := add_credit_result (init_db emptyStore) 5 "default"
    rw [h]
    norm_num [init_db, emptyStore, upsertUser, lookupUser, createIfAbsent, List.find?]
  · norm_num [add_credit, add_credit_result, init_db, emptyStore, upsertUser, incrUser, incrRow,
      lookupUser, createIfAbsent, List.find?]

theorem edit_expense_any_true (s : Store) (i : Nat) (d : String) (a : ℚ)
    (c sub note : String) (h : s.expenses.any (fun e => e.id = i) = true) :
    edit_expense s i d (some a) c sub note
      = ({ s with expenses := s.expenses.map (editRow i d a c sub note) }, Res.ok ()) := by
  unfold edit_expense
  rw [h]
  rfl

theorem edit_expense_any_false (s : Store) (i : Nat) (d : String) (a : ℚ)
    (c sub note : String) (h : s.expenses.any (fun e => e.id = i) = false) :
    edit_expense s i d (some a) c sub note
      = ({ s with expenses := s.expenses.map (editRow i d a c sub note) },
         Res.err "ID not found") := by
  unfold edit_expense
  rw [h]
  rfl

theorem delete_expense_any_true (s : Store) (i : Nat)
    (h : s.expenses.any (fun e => e.id = i) = true) :
    delete_expense s i
      = ({ s with expenses := s.expenses.filter (fun e => decide (e.id ≠ i)) }, Res.ok ()) := by
  unfold delete_expense
  rw [h]
  rfl

theorem delete_expense_any_false (s : Store) (i : Nat)
    (h : s.expenses.any (fun e => e.id = i) = false) :
    delete_expense s i
      = ({ s with expenses := s.expenses.filter (fun e => decide (e.id ≠ i)) },
         Res.err "ID not found") := by
  unfold delete_expense
  rw [h]
  rfl

theorem map_editRow_no_match (l : List Expense) (i : Nat) (d : String) (a : ℚ)
    (c sub note : String) (h : ∀ e ∈ l, e.id ≠ i) :
    l.map (editRow i d a c sub note) = l := by
  rw [List.map_congr_left (g := id) ?_, List.map_id]
  intro e he
  simp [editRow, h e he]

theorem filter_ne_no_match (l : List Expense) (i : Nat) (h : ∀ e ∈ l, e.id ≠ i) :
    l.filter (fun e => decide (e.id ≠ i)) = l := by
  rw [List.filter_eq_self]
  intro e he
  simp [h e he]

theorem any_id_eq_false_iff (l : List Expense) (i : Nat) :
    l.any (fun e => e.id = i) = false ↔ ∀ e ∈ l, e.id ≠ i := by
  rw [List.any_eq_false]
  constructor
  · intro h e he hei
    exact h e he (by simp [hei])
  · intro h e he
    simp [h e he]

/-- C7: `edit_expense` (with a parseable amount) and `delete_expense` return
the `"ID not found"` failure payload exactly when no row has the given id —
so deleting the same id twice yields it on the second call — and in the
not-found case the store is completely unchanged.  The payload is an ordinary
`Res.err` value (the handler catches exceptions rather than crash), and its
message differs from the malformed-amount message, keeping `NotFound`
distinguishable from other failures. -/
theorem edit_delete_notfound (s : Store) (i : Nat) (d : String) (a : ℚ)
    (c sub note : String) :
    ((edit_expense s i d (some a) c sub note).2 = Res.err "ID not found" ↔
      ∀ e ∈ s.expenses, e.id ≠ i) ∧
    ((edit_expense s i d (some a) c sub note).2 = Res.err "ID not found" →
      (edit_expense s i d (some a) c sub note).1 = s) ∧
    ((delete_expense s i).2 = Res.err "ID not found" ↔ ∀ e ∈ s.expenses, e.id ≠ i) ∧
    ((delete_expense s i).2 = Res.err "ID not found" → (delete_expense s i).1 = s) ∧
    ((∃ e ∈ s.expenses, e.id = i) →
      (delete_expense (delete_expense s i).1 i).2 = Res.err "ID not found") ∧
    ("ID not found" : String) ≠ floatErr := by
  have hedit : (edit_expense s i d (some a) c sub note).2 = Res.err "ID not found" ↔
      ∀ e ∈ s.expenses, e.id ≠ i := by
    rcases Bool.eq_false_or_eq_true (s.expenses.any (fun e => e.id = i)) with h | h
    · rw [edit_expense_any_true s i d a c sub note h]
      simp only [List.any_eq_true] at h
      obtain ⟨x, hx, hxi⟩ := h
      constructor
      · intro hc
        exact absurd hc (by simp)
      · intro hall
        exact absurd (of_decide_eq_true hxi) (hall x hx)
    · rw [edit_expense_any_false s i d a c sub note h]
      simpa using (any_id_eq_false_iff s.expenses i).mp h
  have hdel : (delete_expense s i).2 = Res.err "ID not found" ↔
      ∀ e ∈ s.expenses, e.id ≠ i := by
    rcases Bool.eq_false_or_eq_true (s.expenses.any (fun e => e.id = i)) with h | h
    · rw [delete_expense_any_true s i h]
      simp only [List.any_eq_true] at h
      obtain ⟨x, hx, hxi⟩ := h
      constructor
      · intro hc
        exact absurd hc (by simp)
      · intro hall
        exact absurd (of_decide_eq_true hxi) (hall x hx)
    · rw [delete_expense_any_false s i h]
      simpa using (any_id_eq_false_iff s.expenses i).mp h
  have heditstore : (∀ e ∈ s.expenses, e.id ≠ i) →
      (edit_expense s i d (some a) c sub note).1 = s := by
    intro hall
    rw [edit_expense_any_false s i d a c sub note ((any_id_eq_false_iff s.expenses i).mpr hall)]
    show { s with expenses := s.expenses.map (editRow i d a c sub note) } = s
    rw [map_editRow_no_match s.expenses i d a c sub note hall]
  have hdelstore : (∀ e ∈ s.expenses, e.id ≠ i) → (delete_expense s i).1 = s := by
    intro hall
    rw [delete_expense_any_false s i ((any_id_eq_false_iff s.expenses i).mpr hall)]
    show { s with expenses := s.expenses.filter (fun e => decide (e.id ≠ i)) } = s
    rw [filter_ne_no_match s.expenses i hall]
  refine ⟨hedit, fun h => heditstore (hedit.mp h), hdel, fun h => hdelstore (hdel.mp h),
    ?_, by decide⟩
  intro hex
  have hall : ∀ e ∈ (delete_expense s i).1.expenses, e.id ≠ i := by
    intro e he
    rcases Bool.eq_false_or_eq_true (s.expenses.any (fun e => e.id = i)) with h | h
    · rw [delete_expense_any_true s i h] at he
      exact fun hei => by
        have := (List.mem_filter.mp he).2
        simp [hei] at this
    · rw [delete_expense_any_false s i h] at he
      exact fun hei => by
        have := (List.mem_filter.mp he).2
        simp [hei] at this
  have := (any_id_eq_false_iff (delete_expense s i).1.expenses i).mpr hall
  rw [delete_expense_any_false (delete_expense s i).1 i this]

theorem countP_id_eq_one (l : List Expense) (i : Nat)
    (hnd : (l.map (fun e => e.id)).Nodup) (hmem : ∃ e ∈ l, e.id = i) :
    l.countP (fun e => e.id = i) = 1 := by
  have h1 : l.countP (fun e => e.id = i)
      = (l.map (fun e => e.id)).countP (fun n => n = i) := by
    rw [List.countP_map]
    congr 1
  have h2 : (l.map (fun e => e.id)).countP (fun n => n = i)
      = (l.map (fun e => e.id)).count i := by
    rw [List.count]
    congr 1
  have h3 : i ∈ l.map (fun e => e.id) := by
    obtain ⟨e, he, hei⟩ := hmem
    exact List.mem_map.mpr ⟨e, he, hei⟩
  rw [h1, h2]
  exact List.count_eq_one_of_mem hnd h3

/-- C6: on an id that is present, `edit_expense` with a parseable amount
succeeds and replaces all fields of exactly the row with that id (every other
row is kept as it was), and `delete_expense` succeeds and removes exactly the
row with that id; neither operation touches the `users` table (nor the
AUTOINCREMENT counter). -/
theorem edit_delete_frame (s : Store) (i : Nat) (d : String) (a : ℚ)
    (c sub note : String) (hWF : WF s) (hmem : ∃ e ∈ s.expenses, e.id = i) :
    (edit_expense s i d (some a) c sub note).2 = Res.ok () ∧
    (edit_expense s i d (some a) c sub note).1.users = s.users ∧
    (edit_expense s i d (some a) c sub note).1.nextId = s.nextId ∧
    (edit_expense s i d (some a) c sub note).1.expenses.length = s.expenses.length ∧
    (∀ e ∈ s.expenses, e.id ≠ i →
      e ∈ (edit_expense s i d (some a) c sub note).1.expenses) ∧
    (∀ e ∈ (edit_expense s i d (some a) c sub note).1.expenses,
      e.id ≠ i → e ∈ s.expenses) ∧
    (∀ e ∈ (edit_expense s i d (some a) c sub note).1.expenses,
      e.id = i → e = ⟨i, d, a, c, sub, note⟩) ∧
    (⟨i, d, a, c, sub, note⟩ : Expense) ∈ (edit_expense s i d (some a) c sub note).1.expenses ∧
    (delete_expense s i).2 = Res.ok () ∧
    (delete_expense s i).1.users = s.users ∧
    (delete_expense s i).1.nextId = s.nextId ∧
    (delete_expense s i).1.expenses.Sublist s.expenses ∧
    (∀ e, e ∈ (delete_expense s i).1.expenses ↔ e ∈ s.expenses ∧ e.id ≠ i) ∧
    (delete_expense s i).1.expenses.length + 1 = s.expenses.length := by
  have hany : s.expenses.any (fun e => e.id = i) = true := by
    rw [List.any_eq_true]
    obtain ⟨e, he, hei⟩ := hmem
    exact ⟨e, he, by simp [hei]⟩
  rw [edit_expense_any_true s i d a c sub note hany, delete_expense_any_true s i hany]
  refine ⟨rfl, rfl, rfl, by simp, ?_, ?_, ?_, ?_, rfl, rfl, rfl, ?_, ?_, ?_⟩
  · intro e he hne
    have : editRow i d a c sub note e = e := by simp [editRow, hne]
    exact this ▸ List.mem_map_of_mem (editRow i d a c sub note) he
  · intro e he hne
    obtain ⟨x, hx, hxe⟩ := List.mem_map.mp he
    by_cases hxi : x.id = i
    · exfalso
      apply hne
      rw [← hxe]
      simp [editRow, hxi]
    · rwa [← hxe, (by simp [editRow, hxi] : editRow i d a c sub note x = x)]
  · intro e he hei
    obtain ⟨x, hx, hxe⟩ := List.mem_map.mp he
    by_cases hxi : x.id = i
    · rw [← hxe]
      simp [editRow, hxi]
    · exfalso
      rw [← hxe, (by simp [editRow, hxi] : editRow i d a c sub note x = x)] at hei
      exact hxi hei
  · obtain ⟨e, he, hei⟩ := hmem
    have : editRow i d a c sub note e = ⟨i, d, a, c, sub, note⟩ := by simp [editRow, hei]
    exact this ▸ List.mem_map_of_mem (editRow i d a c sub note) he
  · exact List.filter_sublist _
  · intro e
    rw [List.mem_filter]
    constructor
    · rintro ⟨he, hp⟩
      exact ⟨he, by simpa using hp⟩
    · rintro ⟨he, hp⟩
      exact ⟨he, by simpa using hp⟩
  · have hcount := countP_id_eq_one s.expenses i hWF.2.1 hmem
    have hlen := List.length_eq_countP_add_countP (fun e => decide (e.id = i)) s.expenses
    have hfl : (s.expenses.filter (fun e => decide (e.id ≠ i))).length
        = s.expenses.countP (fun e => decide ¬ (decide (e.id = i)) = true) := by
      rw [List.countP_eq_length_filter]
      apply congrArg List.length
      apply List.filter_congr
      intro e he
      by_cases hei : e.id = i <;> simp [hei]
    show (s.expenses.filter (fun e => decide (e.id ≠ i))).length + 1 = s.expenses.length
    rw [hfl, hlen, hcount]
    omega

theorem inRange_iff (lo hi : String) (e : Expense) :
    inRange lo hi e = true ↔ lo ≤ e.date ∧ e.date ≤ hi := by
  unfold inRange
  simp

/-- C4: `list_expenses` returns exactly the stored expenses whose date lies
between `start_date` and `end_date` inclusive under lexicographic string
comparison (no calendar interpretation), ordered by date descending and, for
equal dates, by id descending. -/
theorem list_expenses_range_order (s : Store) (hWF : WF s) (lo hi : String) :
    (∀ e : Expense, e ∈ list_expenses s lo hi ↔
      e ∈ s.expenses ∧ lo ≤ e.date ∧ e.date ≤ hi) ∧
    (list_expenses s lo hi).Perm (s.expenses.filter (inRange lo hi)) ∧
    List.Pairwise (fun x y => y.date < x.date ∨ (x.date = y.date ∧ y.id < x.id))
      (list_expenses s lo hi) := by
  have hperm : (list_expenses s lo hi).Perm (s.expenses.filter (inRange lo hi)) :=
    List.perm_insertionSort expOrd _
  refine ⟨?_, hperm, ?_⟩
  · intro e
    rw [hperm.mem_iff, List.mem_filter, inRange_iff]
  · have hs : List.Pairwise expOrd (list_expenses s lo hi) :=
      List.sorted_insertionSort expOrd _
    have hidsub : ((s.expenses.filter (inRange lo hi)).map (fun e => e.id)).Sublist
        (s.expenses.map (fun e => e.id)) :=
      (List.filter_sublist s.expenses).map _
    have hndfil : ((s.expenses.filter (inRange lo hi)).map (fun e => e.id)).Nodup :=
      hidsub.nodup hWF.2.1
    have hndres : ((list_expenses s lo hi).map (fun e => e.id)).Nodup :=
      ((hperm.map (fun e => e.id)).nodup_iff).mpr hndfil
    have hne : List.Pairwise (fun x y : Expense => x.id ≠ y.id) (list_expenses s lo hi) :=
      (List.pairwise_map).mp hndres
    refine (hs.and hne).imp ?_
    rintro x y ⟨hord, hneq⟩
    rcases hord with h | ⟨h, h'⟩
    · exact Or.inl h
    · exact Or.inr ⟨h, lt_of_le_of_ne h' (fun hc => hneq hc.symm)⟩

/-- The row predicate induced by the optional `category` argument of
`summarize`: only a truthy (non-`None`, non-empty) value filters. -/
def catFilter (category : Option String) (e : Expense) : Bool :=
  match category with
  | some c => if c = "" then true else decide (e.category = c)
  | none => true

/-- The group row built by `summarize` for category `c` from row set `rows`. -/
def mkGroup (rows : List Expense) (c : String) : SummaryRow :=
  ⟨c, ((rows.filter (fun e => decide (e.category = c))).map (fun e => e.amount)).sum,
    (rows.filter (fun e => decide (e.category = c))).length⟩

theorem summarize_eq (s : Store) (lo hi : String) (cat? : Option String) :
    summarize s lo hi cat?
      = List.insertionSort sumOrd
          (((((s.expenses.filter (inRange lo hi)).filter (catFilter cat?)).map
              (fun e => e.category)).dedup).map
            (mkGroup ((s.expenses.filter (inRange lo hi)).filter (catFilter cat?)))) := by
  unfold summarize mkGroup
  cases cat? with
  | none => simp [catFilter, List.filter_true]
  | some c =>
      by_cases hc : c = ""
      · simp [catFilter, hc, List.filter_true]
      · simp [catFilter, hc]

theorem rows_filter_cat (base : List Expense) (cat? : Option String) (c' : String)
    (hc' : ∃ e ∈ base.filter (catFilter cat?), e.category = c') :
    (base.filter (catFilter cat?)).filter (fun e => decide (e.category = c'))
      = base.filter (fun e => decide (e.category = c')) := by
  rw [List.filter_filter]
  apply List.filter_congr
  intro e _
  by_cases hec : e.category = c'
  · obtain ⟨e0, he0, hc0⟩ := hc'
    have he0f := (List.mem_filter.mp he0).2
    cases cat? with
    | none => simp [catFilter, hec]
    | some c =>
        by_cases hcs : c = ""
        · simp [catFilter, hcs, hec]
        · have : e0.category = c := by
            simpa [catFilter, hcs] using he0f
          have hc'c : c' = c := hc0 ▸ this
          simp [catFilter, hcs, hec, hc'c]
  · simp [hec]

/-- C5: every group returned by `summarize` totals (sum) and counts exactly
the expenses that `list_expenses` returns for the same range restricted to
that group's category; the groups are exactly the categories with at least
one matching row (each category at most once), ordered by descending total;
and when nothing matches the result is the empty list (a normal ok result in
the handler), not an error. -/
theorem summarize_totals_match_list (s : Store) (lo hi : String) (cat? : Option String) :
    (∀ g ∈ summarize s lo hi cat?,
      g.total_amount = (((list_expenses s lo hi).filter
          (fun e => decide (e.category = g.category))).map (fun e => e.amount)).sum ∧
      g.count = ((list_expenses s lo hi).filter
          (fun e => decide (e.category = g.category))).length) ∧
    (∀ g ∈ summarize s lo hi cat?, ∃ e ∈ list_expenses s lo hi,
      catFilter cat? e = true ∧ e.category = g.category) ∧
    (∀ e ∈ list_expenses s lo hi, catFilter cat? e = true →
      ∃ g ∈ summarize s lo hi cat?, g.category = e.category) ∧
    ((summarize s lo hi cat?).map (fun g => g.category)).Nodup ∧
    List.Pairwise sumOrd (summarize s lo hi cat?) ∧
    ((∀ e ∈ list_expenses s lo hi, catFilter cat? e = false) →
      summarize s lo hi cat? = []) := by
  have hL : (list_expenses s lo hi).Perm (s.expenses.filter (inRange lo hi)) :=
    List.perm_insertionSort expOrd _
  rw [summarize_eq s lo hi cat?]
  set base := s.expenses.filter (inRange lo hi) with hbase
  set rows := base.filter (catFilter cat?) with hrows
  set groups := ((rows.map (fun e => e.category)).dedup).map (mkGroup rows) with hgroups
  have hsp : (List.insertionSort sumOrd groups).Perm groups :=
    List.perm_insertionSort sumOrd groups
  refine ⟨?_, ?_, ?_, ?_, List.sorted_insertionSort sumOrd groups, ?_⟩
  · intro g hg
    have hg' : g ∈ groups := hsp.mem_iff.mp hg
    rw [hgroups, List.mem_map] at hg'
    obtain ⟨c', hc', rfl⟩ := hg'
    rw [List.mem_dedup, List.mem_map] at hc'
    obtain ⟨e0, he0, he0c⟩ := hc'
    have hfil : rows.filter (fun e => decide (e.category = c'))
        = base.filter (fun e => decide (e.category = c')) :=
      rows_filter_cat base cat? c' ⟨e0, he0, he0c⟩
    have hLfil : ((list_expenses s lo hi).filter
        (fun e => decide (e.category = c'))).Perm
        (base.filter (fun e => decide (e.category = c'))) :=
      hL.filter _
    constructor
    · show ((rows.filter (fun e => decide (e.category = c'))).map (fun e => e.amount)).sum = _
      rw [hfil]
      exact ((hLfil.map (fun e => e.amount)).sum_eq).symm
    · show (rows.filter (fun e => decide (e.category = c'))).length = _
      rw [hfil]
      exact hLfil.length_eq.symm
  · intro g hg
    have hg' : g ∈ groups := hsp.mem_iff.mp hg
    rw [hgroups, List.mem_map] at hg'
    obtain ⟨c', hc', rfl⟩ := hg'
    rw [List.mem_dedup, List.mem_map] at hc'
    obtain ⟨e0, he0, he0c⟩ := hc'
    have he0b := List.mem_filter.mp he0
    exact ⟨e0, hL.mem_iff.mpr he0b.1, he0b.2, he0c⟩
  · intro e he hef
    have heb : e ∈ base := hL.mem_iff.mp he
    have her : e ∈ rows := List.mem_filter.mpr ⟨heb, hef⟩
    refine ⟨mkGroup rows e.category, ?_, rfl⟩
    apply hsp.mem_iff.mpr
    rw [hgroups, List.mem_map]
    exact ⟨e.category, List.mem_dedup.mpr (List.mem_map.mpr ⟨e, her, rfl⟩), rfl⟩
  · have hmap : ((List.insertionSort sumOrd groups).map (fun g => g.category)).Perm
        (groups.map (fun g => g.category)) := hsp.map _
    rw [hmap.nodup_iff, hgroups, List.map_map]
    have : ((fun g : SummaryRow => g.category) ∘ mkGroup rows) = id := by
      funext c
      rfl
    rw [this, List.map_id]
    exact List.nodup_dedup _
  · intro hall
    have hrnil : rows = [] := by
      rw [hrows, List.filter_eq_nil_iff]
      intro e he
      have : e ∈ list_expenses s lo hi := hL.mem_iff.mpr he
      simp [hall e this]
    rw [hgroups, hrnil]
    rfl

theorem createIfAbsent_eq_of_mem {l : List String} {x : String} (h : x ∈ l) :
    createIfAbsent l x = l := by
  unfold createIfAbsent
  rw [if_pos h]

theorem createIfAbsent_self_mem (l : List String) (x : String) : x ∈ createIfAbsent l x := by
  unfold createIfAbsent
  by_cases h : x ∈ l
  · rw [if_pos h]; exact h
  · rw [if_neg h]; simp

theorem createIfAbsent_mem_of_mem {l : List String} {y : String} (x : String) (h : y ∈ l) :
    y ∈ createIfAbsent l x := by
  unfold createIfAbsent
  by_cases hx : x ∈ l
  · rw [if_pos hx]; exact h
  · rw [if_neg hx]; exact List.mem_append_left _ h

theorem createIfAbsent_nodup {l : List String} (x : String) (h : l.Nodup) :
    (createIfAbsent l x).Nodup := by
  unfold createIfAbsent
  by_cases hx : x ∈ l
  · rw [if_pos hx]; exact h
  · rw [if_neg hx]
    exact h.append (List.nodup_singleton x) (by simpa using hx)

theorem init_db_expenses (s : Store) : (init_db s).expenses = s.expenses := by
  simp only [init_db, upsertUser]
  split <;> rfl

theorem init_db_nextId (s : Store) : (init_db s).nextId = s.nextId := by
  simp only [init_db, upsertUser]
  split <;> rfl

theorem init_db_users (s : Store) :
    (init_db s).users = if s.users.any (fun u => u.name = "default") then s.users
      else s.users ++ [⟨"default", 0⟩] := by
  simp only [init_db, upsertUser]
  split <;> simp_all

theorem init_db_tables (s : Store) :
    (init_db s).tables = createIfAbsent (createIfAbsent s.tables "expenses") "users" := by
  simp only [init_db, upsertUser]
  split <;> rfl

theorem init_db_indexes (s : Store) :
    (init_db s).indexes = createIfAbsent (createIfAbsent s.indexes "idx_date") "idx_cat" := by
  simp only [init_db, upsertUser]
  split <;> rfl

theorem Store_ext {s1 s2 : Store} (h1 : s1.expenses = s2.expenses)
    (h2 : s1.nextId = s2.nextId) (h3 : s1.users = s2.users)
    (h4 : s1.tables = s2.tables) (h5 : s1.indexes = s2.indexes) : s1 = s2 := by
  cases s1
  cases s2
  simp_all

theorem init_db_has_default (s : Store) :
    (init_db s).users.any (fun u => u.name = "default") = true := by
  rw [init_db_users]
  by_cases h : s.users.any (fun u => u.name = "default")
  · rw [if_pos h]; exact h
  · rw [if_neg (by simpa using h)]
    rw [List.any_eq_true]
    exact ⟨⟨"default", 0⟩, by simp⟩

/-- C9: schema initialization is idempotent — a second run changes nothing,
creates no duplicate schema objects, overwrites no expense or user row, and
after any run a user named "default" exists: created with credit 0 when it
was absent, left untouched (with its current credit) otherwise. -/
theorem init_db_idempotent (s : Store) :
    init_db (init_db s) = init_db s ∧
    (init_db s).expenses = s.expenses ∧
    (init_db s).nextId = s.nextId ∧
    (∃ rest, (init_db s).users = s.users ++ rest) ∧
    (s.tables.Nodup → (init_db s).tables.Nodup) ∧
    (s.indexes.Nodup → (init_db s).indexes.Nodup) ∧
    (∃ u ∈ (init_db s).users, u.name = "default") ∧
    ((∀ u ∈ s.users, u.name ≠ "default") →
      (init_db s).users = s.users ++ [⟨"default", 0⟩]) ∧
    ((∃ u ∈ s.users, u.name = "default") → (init_db s).users = s.users) := by
  refine ⟨?_, init_db_expenses s, init_db_nextId s, ?_, ?_, ?_, ?_, ?_, ?_⟩
  · apply Store_ext
    · rw [init_db_expenses, init_db_expenses]
    · rw [init_db_nextId, init_db_nextId]
    · rw [init_db_users (init_db s), if_pos (init_db_has_default s)]
    · rw [init_db_tables (init_db s), init_db_tables s]
      have h1 : "expenses" ∈ createIfAbsent (createIfAbsent s.tables "expenses") "users" :=
        createIfAbsent_mem_of_mem _ (createIfAbsent_self_mem _ _)
      rw [createIfAbsent_eq_of_mem h1]
      exact createIfAbsent_eq_of_mem (createIfAbsent_self_mem _ _)
    · rw [init_db_indexes (init_db s), init_db_indexes s]
      have h1 : "idx_date" ∈ createIfAbsent (createIfAbsent s.indexes "idx_date") "idx_cat" :=
        createIfAbsent_mem_of_mem _ (createIfAbsent_self_mem _ _)
      rw [createIfAbsent_eq_of_mem h1]
      exact createIfAbsent_eq_of_mem (createIfAbsent_self_mem _ _)
  · rw [init_db_users]
    by_cases h : s.users.any (fun u => u.name = "default")
    · rw [if_pos h]; exact ⟨[], by simp⟩
    · rw [if_neg (by simpa using h)]; exact ⟨[⟨"default", 0⟩], rfl⟩
  · intro h
    rw [init_db_tables]
    exact createIfAbsent_nodup _ (createIfAbsent_nodup _ h)
  · intro h
    rw [init_db_indexes]
    exact createIfAbsent_nodup _ (createIfAbsent_nodup _ h)
  · have h := init_db_has_default s
    rw [List.any_eq_true] at h
    obtain ⟨u, hu, hn⟩ := h
    exact ⟨u, hu, of_decide_eq_true hn⟩
  · intro h
    rw [init_db_users]
    rw [if_neg ?_]
    rw [Bool.not_eq_true, List.any_eq_false]
    intro u hu
    simp [h u hu]
  · intro h
    obtain ⟨u, hu, hn⟩ := h
    rw [init_db_users]
    rw [if_pos (List.any_eq_true.mpr ⟨u, hu, by simp [hn]⟩)]

/-- One request handled by the service (reads omitted: they do not change the
store).  `amount` carries the parse outcome of the textual input. -/
inductive Op where
  | addE (date : String) (amount : Option ℚ) (category subcategory note : String)
  | editE (id : Nat) (date : String) (amount : Option ℚ) (category subcategory note : String)
  | delE (id : Nat)
  | creditU (amount : Option ℚ) (user : String)
  | initDB
deriving Repr, DecidableEq

/-- Store after handling one request. -/
def applyOp (s : Store) : Op → Store
  | .addE d a c sub n => (add_expense s d a c sub n).1
  | .editE i d a c sub n => (edit_expense s i d a c sub n).1
  | .delE i => (delete_expense s i).1
  | .creditU a u => (add_credit s a u).1
  | .initDB => init_db s

/-- Store after handling a sequence of requests. -/
def runTrace (s : Store) : List Op → Store
  | [] => s
  | op :: t => runTrace (applyOp s op) t

/-- The expense ids handed out (by successful `add_expense` calls) along a
trace, including ids of rows that are later edited or deleted. -/
def assignedIds (s : Store) : List Op → List Nat
  | [] => []
  | op :: t =>
      (match op with
       | .addE _ (some _) _ _ _ => [s.nextId]
       | _ => []) ++ assignedIds (applyOp s op) t

theorem nextId_applyOp (s : Store) (op : Op) : s.nextId ≤ (applyOp s op).nextId := by
  cases op with
  | addE d a c sub n =>
      cases a with
      | none => exact le_refl _
      | some x => exact Nat.le_succ _
  | editE i d a c sub n =>
      cases a with
      | none => exact le_refl _
      | some x =>
          show s.nextId ≤ (edit_expense s i d (some x) c sub n).1.nextId
          rcases Bool.eq_false_or_eq_true (s.expenses.any (fun e => e.id = i)) with h | h
          · rw [edit_expense_any_true s i d x c sub n h]
          · rw [edit_expense_any_false s i d x c sub n h]
  | delE i =>
      show s.nextId ≤ (delete_expense s i).1.nextId
      rcases Bool.eq_false_or_eq_true (s.expenses.any (fun e => e.id = i)) with h | h
      · rw [delete_expense_any_true s i h]
      · rw [delete_expense_any_false s i h]
  | creditU a u =>
      cases a with
      | none => exact le_refl _
      | some x =>
          show s.nextId ≤ (add_credit s (some x) u).1.nextId
          unfold add_credit
          cases hl : lookupUser (incrUser (upsertUser s u 0) u x) u with
          | none => simp [hl]
          | some y =>
              simp only [hl]
              show s.nextId ≤ (incrUser (upsertUser s u 0) u x).nextId
              unfold incrUser upsertUser
              split <;> exact le_refl _
  | initDB => exact le_of_eq (init_db_nextId s).symm

theorem editRow_id (i : Nat) (d : String) (a : ℚ) (c sub note : String) (e : Expense) :
    (editRow i d a c sub note e).id = e.id := by
  unfold editRow
  split
  · rename_i h
    exact h.symm
  · rfl

theorem map_ids_map_editRow (l : List Expense) (i : Nat) (d : String) (a : ℚ)
    (c sub note : String) :
    (l.map (editRow i d a c sub note)).map (fun e => e.id) = l.map (fun e => e.id) := by
  rw [List.map_map]
  exact List.map_congr_left (fun e _ => editRow_id i d a c sub note e)

theorem incrUser_names (s : Store) (u : String) (a : ℚ) :
    (incrUser s u a).users.map (fun x => x.name) = s.users.map (fun x => x.name) := by
  show (s.users.map (incrRow u a)).map (fun x => x.name) = _
  rw [List.map_map]
  exact List.map_congr_left (fun x _ => incrRow_name u a x)

theorem upsertUser_names_nodup (s : Store) (u : String) (c : ℚ)
    (h : (s.users.map (fun x => x.name)).Nodup) :
    ((upsertUser s u c).users.map (fun x => x.name)).Nodup := by
  unfold upsertUser
  rcases Bool.eq_false_or_eq_true (s.users.any (fun x => x.name = u)) with hb | hb
  · rw [hb]
    simpa using h
  · rw [hb]
    simp only [Bool.false_eq_true, if_false, List.map_append, List.map_cons, List.map_nil]
    refine h.append (List.nodup_singleton u) ?_
    intro y hy hy'
    simp only [List.mem_singleton] at hy'
    subst hy'
    rw [List.mem_map] at hy
    obtain ⟨x, hx, hxn⟩ := hy
    rw [List.any_eq_false] at hb
    exact hb x hx (by simp [hxn])

theorem add_credit_frame (s : Store) (a : ℚ) (u : String) :
    (add_credit s (some a) u).1.expenses = s.expenses ∧
    (add_credit s (some a) u).1.nextId = s.nextId ∧
    ((s.users.map (fun x => x.name)).Nodup →
      ((add_credit s (some a) u).1.users.map (fun x => x.name)).Nodup) := by
  unfold add_credit
  cases hl : lookupUser (incrUser (upsertUser s u 0) u a) u with
  | none => simp [hl]
  | some y =>
      simp only [hl]
      refine ⟨?_, ?_, ?_⟩
      · show (incrUser (upsertUser s u 0) u a).expenses = s.expenses
        unfold incrUser upsertUser
        split <;> rfl
      · show (incrUser (upsertUser s u 0) u a).nextId = s.nextId
        unfold incrUser upsertUser
        split <;> rfl
      · intro h
        show (((incrUser (upsertUser s u 0) u a).users).map (fun x => x.name)).Nodup
        rw [incrUser_names]
        exact upsertUser_names_nodup s u 0 h

theorem WF_applyOp (s : Store) (op : Op) (h : WF s) : WF (applyOp s op) := by
  obtain ⟨hlt, hnd, hnames⟩ := h
  cases op with
  | addE d a c sub n =>
      cases a with
      | none => exact ⟨hlt, hnd, hnames⟩
      | some x =>
          refine ⟨?_, ?_, hnames⟩
          · intro e he
            show e.id < s.nextId + 1
            rcases List.mem_append.mp he with h1 | h1
            · exact Nat.lt_succ_of_lt (hlt e h1)
            · rw [List.mem_singleton] at h1
              subst h1
              exact Nat.lt_succ_self _
          · show ((s.expenses ++ [(⟨s.nextId, d, x, c, sub, n⟩ : Expense)]).map (fun e => e.id)).Nodup
            rw [List.map_append]
            refine hnd.append (by simp) ?_
            intro y hy hy'
            simp only [List.map_cons, List.map_nil, List.mem_singleton] at hy'
            subst hy'
            rw [List.mem_map] at hy
            obtain ⟨e, he, hei⟩ := hy
            exact absurd (hei ▸ hlt e he) (lt_irrefl _)
  | editE i d a c sub n =>
      cases a with
      | none => exact ⟨hlt, hnd, hnames⟩
      | some x =>
          have hexp : (applyOp s (.editE i d (some x) c sub n)).expenses
              = s.expenses.map (editRow i d x c sub n) := by
            show (edit_expense s i d (some x) c sub n).1.expenses = _
            rcases Bool.eq_false_or_eq_true (s.expenses.any (fun e => e.id = i)) with hb | hb
            · rw [edit_expense_any_true s i d x c sub n hb]
            · rw [edit_expense_any_false s i d x c sub n hb]
          have hnx : (applyOp s (.editE i d (some x) c sub n)).nextId = s.nextId := by
            show (edit_expense s i d (some x) c sub n).1.nextId = _
            rcases Bool.eq_false_or_eq_true (s.expenses.any (fun e => e.id = i)) with hb | hb
            · rw [edit_expense_any_true s i d x c sub n hb]
            · rw [edit_expense_any_false s i d x c sub n hb]
          have husers : (applyOp s (.editE i d (some x) c sub n)).users = s.users := by
            show (edit_expense s i d (some x) c sub n).1.users = _
            rcases Bool.eq_false_or_eq_true (s.expenses.any (fun e => e.id = i)) with hb | hb
            · rw [edit_expense_any_true s i d x c sub n hb]
            · rw [edit_expense_any_false s i d x c sub n hb]
          refine ⟨?_, ?_, ?_⟩
          · intro e he
            rw [hexp] at he
            rw [hnx]
            obtain ⟨e0, he0, he0e⟩ := List.mem_map.mp he
            rw [← he0e, editRow_id]
            exact hlt e0 he0
          · rw [hexp, map_ids_map_editRow]
            exact hnd
          · rw [husers]
            exact hnames
  | delE i =>
      have hexp : (applyOp s (.delE i)).expenses
          = s.expenses.filter (fun e => decide (e.id ≠ i)) := by
        show (delete_expense s i).1.expenses = _
        rcases Bool.eq_false_or_eq_true (s.expenses.any (fun e => e.id = i)) with hb | hb
        · rw [delete_expense_any_true s i hb]
        · rw [delete_expense_any_false s i hb]
      have hnx : (applyOp s (.delE i)).nextId = s.nextId := by
        show (delete_expense s i).1.nextId = _
        rcases Bool.eq_false_or_eq_true (s.expenses.any (fun e => e.id = i)) with hb | hb
        · rw [delete_expense_any_true s i hb]
        · rw [delete_expense_any_false s i hb]
      have husers : (applyOp s (.delE i)).users = s.users := by
        show (delete_expense s i).1.users = _
        rcases Bool.eq_false_or_eq_true (s.expenses.any (fun e => e.id = i)) with hb | hb
        · rw [delete_expense_any_true s i hb]
        · rw [delete_expense_any_false s i hb]
      refine ⟨?_, ?_, ?_⟩
      · intro e he
        rw [hexp] at he
        rw [hnx]
        exact hlt e (List.mem_filter.mp he).1
      · rw [hexp]
        exact (((List.filter_sublist s.expenses).map (fun e => e.id)).nodup hnd)
      · rw [husers]
        exact hnames
  | creditU a u =>
      cases a with
      | none => exact ⟨hlt, hnd, hnames⟩
      | some x =>
          obtain ⟨hexp, hnx, hnm⟩ := add_credit_frame s x u
          refine ⟨?_, ?_, hnm hnames⟩
          · intro e he
            rw [show (applyOp s (.creditU (some x) u)) = (add_credit s (some x) u).1 from rfl,
              hexp] at he
            rw [show (applyOp s (.creditU (some x) u)) = (add_credit s (some x) u).1 from rfl,
              hnx]
            exact hlt e he
          · rw [show (applyOp s (.creditU (some x) u)) = (add_credit s (some x) u).1 from rfl,
              hexp]
            exact hnd
  | initDB =>
      refine ⟨?_, ?_, ?_⟩
      · intro e he
        rw [show applyOp s .initDB = init_db s from rfl, init_db_expenses] at he
        rw [show applyOp s .initDB = init_db s from rfl, init_db_nextId]
        exact hlt e he
      · rw [show applyOp s .initDB = init_db s from rfl, init_db_expenses]
        exact hnd
      · rw [show applyOp s .initDB = init_db s from rfl, init_db_users]
        rcases Bool.eq_false_or_eq_true (s.users.any (fun x => x.name = "default")) with hb | hb
        · rw [hb]
          simpa using hnames
        · rw [hb]
          simp only [Bool.false_eq_true, if_false, List.map_append, List.map_cons, List.map_nil]
          refine hnames.append (List.nodup_singleton _) ?_
          intro y hy hy'
          simp only [List.mem_singleton] at hy'
          subst hy'
          rw [List.mem_map] at hy
          obtain ⟨z, hz, hzn⟩ := hy
          rw [List.any_eq_false] at hb
          exact hb z hz (by simp [hzn])

theorem nextId_runTrace (s : Store) (t : List Op) : s.nextId ≤ (runTrace s t).nextId := by
  induction t generalizing s with
  | nil => exact le_refl _
  | cons op t ih => exact (nextId_applyOp s op).trans (ih (applyOp s op))

theorem WF_runTrace (s : Store) (t : List Op) (h : WF s) : WF (runTrace s t) := by
  induction t generalizing s with
  | nil => exact h
  | cons op t ih => exact ih (applyOp s op) (WF_applyOp s op h)

theorem assignedIds_lt (s : Store) (t : List Op) :
    ∀ i ∈ assignedIds s t, i < (runTrace s t).nextId := by
  induction t generalizing s with
  | nil => intro i hi; exact absurd hi (List.not_mem_nil i)
  | cons op t ih =>
      intro i hi
      unfold assignedIds at hi
      rcases List.mem_append.mp hi with h1 | h1
      · have hid : i = s.nextId := by
          cases op with
          | addE d a c sub n =>
              cases a with
              | none => simp at h1
              | some x => simpa using h1
          | editE i' d a c sub n => simp at h1
          | delE i' => simp at h1
          | creditU a u => simp at h1
          | initDB => simp at h1
        subst hid
        have h2 : s.nextId < (applyOp s op).nextId ∨ s.nextId < (runTrace (applyOp s op) t).nextId := by
          cases op with
          | addE d a c sub n =>
              cases a with
              | none => simp at h1
              | some x => exact Or.inl (Nat.lt_succ_self _)
          | editE i' d a c sub n => simp at h1
          | delE i' => simp at h1
          | creditU a u => simp at h1
          | initDB => simp at h1
        show s.nextId < (runTrace (applyOp s op) t).nextId
        rcases h2 with h2 | h2
        · exact lt_of_lt_of_le h2 (nextId_runTrace (applyOp s op) t)
        · exact h2
      · exact ih (applyOp s op) i h1

/-- C1: from any well-formed initial store and after any sequence of
operations, `add_expense` on a parseable amount inserts exactly one new row
carrying the given field values (subcategory and note default to `""` at the
binder level), returns the AUTOINCREMENT id, which is strictly greater than
every id previously assigned along the trace (hence never reused, even for
rows deleted meanwhile) and different from every id currently in the table;
a subsequent `list_expenses` over any range containing the date returns that
row with identical field values. -/
theorem add_expense_fresh_id (s₀ : Store) (t : List Op) (hWF : WF s₀) (d : String)
    (a : ℚ) (c sub note : String) :
    (add_expense (runTrace s₀ t) d (some a) c sub note).2
      = Res.ok (runTrace s₀ t).nextId ∧
    (∀ i ∈ assignedIds s₀ t, i < (runTrace s₀ t).nextId) ∧
    (∀ e ∈ (runTrace s₀ t).expenses, e.id < (runTrace s₀ t).nextId) ∧
    (add_expense (runTrace s₀ t) d (some a) c sub note).1.expenses
      = (runTrace s₀ t).expenses
        ++ [⟨(runTrace s₀ t).nextId, d, a, c, sub, note⟩] ∧
    (add_expense (runTrace s₀ t) d (some a) c sub note).1.users
      = (runTrace s₀ t).users ∧
    (∀ lo hi, lo ≤ d → d ≤ hi →
      (⟨(runTrace s₀ t).nextId, d, a, c, sub, note⟩ : Expense)
        ∈ list_expenses (add_expense (runTrace s₀ t) d (some a) c sub note).1 lo hi) := by
  refine ⟨rfl, assignedIds_lt s₀ t, (WF_runTrace s₀ t hWF).1, rfl, rfl, ?_⟩
  intro lo hi hlo hhi
  unfold list_expenses
  rw [(List.perm_insertionSort expOrd _).mem_iff, List.mem_filter]
  constructor
  · show _ ∈ (runTrace s₀ t).expenses ++ [(⟨(runTrace s₀ t).nextId, d, a, c, sub, note⟩ : Expense)]
    exact List.mem_append_right _ (List.mem_singleton_self _)
  · show inRange lo hi ⟨(runTrace s₀ t).nextId, d, a, c, sub, note⟩ = true
    unfold inRange
    simp only [Bool.and_eq_true, decide_eq_true_eq]
    exact ⟨hlo, hhi⟩

/-! ### Interleaving model for concurrent `add_credit` calls

Each SQL statement is executed atomically by SQLite (writers are serialized
by the database lock), so one `add_credit(a, u)` call contributes two atomic
store mutations, in program order: the `INSERT OR IGNORE` upsert and the
single-statement read-increment-write `UPDATE users SET credit = credit + a`
(the trailing SELECT does not change the store).  A system configuration is
the store paired with the remaining step lists of the concurrent calls; a
scheduler step executes the first pending statement of any call. -/

/-- One atomic store-mutating SQL statement of `add_credit`. -/
inductive CreditStep where
  | upsert
  | incr
deriving Repr, DecidableEq

/-- Execute one statement of `add_credit(a, u)` against the store. -/
def applyCreditStep (u : String) (a : ℚ) (s : Store) : CreditStep → Store
  | .upsert => upsertUser s u 0
  | .incr => incrUser s u a

/-- The statements of one `add_credit` call, in program order. -/
def creditProg : List CreditStep := [.upsert, .incr]

/-- Interleaving semantics: any call with a pending statement may execute it. -/
inductive SysStep (u : String) (a : ℚ) :
    Store × List (List CreditStep) → Store × List (List CreditStep) → Prop where
  | exec (s : Store) (pre post : List (List CreditStep)) (st : CreditStep)
      (rest : List CreditStep) :
      SysStep u a (s, pre ++ (st :: rest) :: post)
        (applyCreditStep u a s st, pre ++ rest :: post)

/-- The balance of user `u` (0 when the row does not exist). -/
def creditOf (s : Store) (u : String) : ℚ :=
  ((lookupUser s u).map (fun x => x.credit)).getD 0

/-- Number of increments not yet executed. -/
def pendingIncrs (procs : List (List CreditStep)) : Nat :=
  (procs.map (fun p => p.count .incr)).sum

/-- Inductive invariant: every call is at a program point of `creditProg`, the
balance plus the pending increments accounts for the full total, and the user
row can be absent only while no call has passed its upsert. -/
def CreditInv (u : String) (a : ℚ) (n : Nat)
    (cfg : Store × List (List CreditStep)) : Prop :=
  (∀ p ∈ cfg.2, p = creditProg ∨ p = [.incr] ∨ p = []) ∧
  creditOf cfg.1 u + a * (pendingIncrs cfg.2 : ℚ) = a * n ∧
  (lookupUser cfg.1 u = none → ∀ p ∈ cfg.2, p = creditProg)

theorem creditOf_upsert (s : Store) (u : String) :
    creditOf (upsertUser s u 0) u = creditOf s u := by
  unfold creditOf
  rw [lookupUser_upsertUser_self]
  cases hl : lookupUser s u with
  | none => rfl
  | some x => rfl

theorem lookupUser_upsert_isSome (s : Store) (u : String) (c : ℚ) :
    lookupUser (upsertUser s u c) u ≠ none := by
  rw [lookupUser_upsertUser_self]
  exact Option.some_ne_none _

theorem creditOf_incr_of_some {s : Store} {u : String} {x : User} (a : ℚ)
    (h : lookupUser s u = some x) :
    creditOf (incrUser s u a) u = creditOf s u + a := by
  unfold creditOf
  rw [lookupUser_incrUser, h]
  have hx : x.name = u := lookupUser_some_name h
  simp [incrRow, hx]

theorem lookupUser_incr_ne_none {s : Store} {u : String} {x : User} (a : ℚ)
    (h : lookupUser s u = some x) :
    lookupUser (incrUser s u a) u ≠ none := by
  rw [lookupUser_incrUser, h]
  exact Option.some_ne_none _

theorem pendingIncrs_append_cons (pre post : List (List CreditStep))
    (x : List CreditStep) :
    pendingIncrs (pre ++ x :: post)
      = pendingIncrs pre + x.count .incr + pendingIncrs post := by
  unfold pendingIncrs
  rw [List.map_append, List.sum_append, List.map_cons, List.sum_cons]
  omega

theorem CreditInv_step {u : String} {a : ℚ} {n : Nat}
    {cfg cfg' : Store × List (List CreditStep)}
    (hstep : SysStep u a cfg cfg') (hinv : CreditInv u a n cfg) :
    CreditInv u a n cfg' := by
  obtain ⟨hsuffix, hbal, habs⟩ := hinv
  cases hstep with
  | exec s pre post st rest =>
      have hproc : (st :: rest) ∈ pre ++ (st :: rest) :: post := by simp
      have hps := hsuffix _ hproc
      cases st with
      | upsert =>
          have hrest : rest = [.incr] := by
            rcases hps with h | h | h
            · simpa [creditProg] using h
            · simp at h
            · simp at h
          subst hrest
          refine ⟨?_, ?_, ?_⟩
          · intro p hp
            rcases List.mem_append.mp hp with h | h
            · exact hsuffix p (List.mem_append_left _ h)
            · rcases List.mem_cons.mp h with h | h
              · exact Or.inr (Or.inl h)
              · exact hsuffix p (List.mem_append_right _ (List.mem_cons_of_mem _ h))
          · show creditOf (applyCreditStep u a s .upsert) u
                + a * (pendingIncrs (pre ++ [CreditStep.incr] :: post) : ℚ) = a * n
            show creditOf (upsertUser s u 0) u + _ = _
            rw [creditOf_upsert]
            have hp1 : pendingIncrs (pre ++ [CreditStep.upsert, CreditStep.incr] :: post)
                = pendingIncrs (pre ++ [CreditStep.incr] :: post) := by
              rw [pendingIncrs_append_cons, pendingIncrs_append_cons]
              simp [List.count_cons]
            rw [← hp1]
            exact hbal
          · intro hnone
            exact absurd hnone (lookupUser_upsert_isSome s u 0)
      | incr =>
          have hrest : rest = [] := by
            rcases hps with h | h | h
            · simp [creditProg] at h
            · simpa using h
            · simp at h
          subst hrest
          have hsome : ∃ x, lookupUser s u = some x := by
            cases hl : lookupUser s u with
            | some x => exact ⟨x, rfl⟩
            | none =>
                have := habs hl _ hproc
                simp [creditProg] at this
          obtain ⟨x, hx⟩ := hsome
          refine ⟨?_, ?_, ?_⟩
          · intro p hp
            rcases List.mem_append.mp hp with h | h
            · exact hsuffix p (List.mem_append_left _ h)
            · rcases List.mem_cons.mp h with h | h
              · exact Or.inr (Or.inr h)
              · exact hsuffix p (List.mem_append_right _ (List.mem_cons_of_mem _ h))
          · show creditOf (applyCreditStep u a s .incr) u
                + a * (pendingIncrs (pre ++ [] :: post) : ℚ) = a * n
            show creditOf (incrUser s u a) u + _ = _
            rw [creditOf_incr_of_some a hx]
            have hp1 : pendingIncrs (pre ++ [CreditStep.incr] :: post)
                = pendingIncrs (pre ++ ([] : List CreditStep) :: post) + 1 := by
              rw [pendingIncrs_append_cons, pendingIncrs_append_cons]
              simp [List.count_cons]
              omega
            rw [← hbal, hp1]
            push_cast
            ring
          · intro hnone
            exact absurd hnone (lookupUser_incr_ne_none a hx)

theorem CreditInv_reach {u : String} {a : ℚ} {n : Nat}
    {cfg cfg' : Store × List (List CreditStep)}
    (h : Relation.ReflTransGen (SysStep u a) cfg cfg')
    (hinv : CreditInv u a n cfg) : CreditInv u a n cfg' := by
  induction h with
  | refl => exact hinv
  | tail _ hstep ih => exact CreditInv_step hstep ih

theorem CreditInv_init (u : String) (a : ℚ) (n : Nat) (s₀ : Store)
    (h0 : lookupUser s₀ u = none) :
    CreditInv u a n (s₀, List.replicate n creditProg) := by
  refine ⟨?_, ?_, ?_⟩
  · intro p hp
    exact Or.inl (List.eq_of_mem_replicate hp)
  · show creditOf s₀ u + a * (pendingIncrs (List.replicate n creditProg) : ℚ) = a * n
    have h1 : creditOf s₀ u = 0 := by
      unfold creditOf
      rw [h0]
      rfl
    have h2 : pendingIncrs (List.replicate n creditProg) = n := by
      unfold pendingIncrs
      rw [List.map_replicate]
      simp [creditProg]
    rw [h1, h2, zero_add]
  · intro _ p hp
    exact List.eq_of_mem_replicate hp

/-- C3: under the interleaving model of the statement-atomic SQL steps, `n`
concurrent `add_credit(10, "u")` calls starting from a store with no row for
the previously-unseen user `"u"` always terminate with balance exactly
`10 * n`: the single-statement increment is atomic with respect to the other
calls, so no increment is lost, whatever the interleaving. -/
theorem add_credit_no_lost_updates (s₀ : Store) (n : Nat) (sf : Store)
    (procsf : List (List CreditStep))
    (h0 : lookupUser s₀ "u" = none)
    (hreach : Relation.ReflTransGen (SysStep "u" 10)
      (s₀, List.replicate n creditProg) (sf, procsf))
    (hdone : ∀ p ∈ procsf, p = []) :
    creditOf sf "u" = 10 * n := by
  have hinv := CreditInv_reach hreach (CreditInv_init "u" 10 n s₀ h0)
  obtain ⟨_, hbal, _⟩ := hinv
  have hpend : pendingIncrs procsf = 0 := by
    unfold pendingIncrs
    apply List.sum_eq_zero
    intro x hx
    rw [List.mem_map] at hx
    obtain ⟨p, hp, rfl⟩ := hx
    rw [hdone p hp]
    rfl
  rw [show ((sf, procsf) : Store × List (List CreditStep)).1 = sf from rfl] at hbal
  rw [show ((sf, procsf) : Store × List (List CreditStep)).2 = procsf from rfl] at hbal
  rw [hpend] at hbal
  simpa using hbal

/-- A small populated store used to instantiate the general theorems. -/
def exStore : Store :=
  ⟨[⟨1, "2024-01-05", 1, "Food", "", ""⟩, ⟨2, "2024-02-01", 2, "Travel", "", ""⟩],
    3, [⟨"default", 0⟩], ["expenses", "users"], ["idx_date", "idx_cat"]⟩

/-- Witness instantiating C1 at the empty store and the empty trace. -/
theorem add_expense_fresh_id_witness :
    WF emptyStore ∧
    (add_expense (runTrace emptyStore []) "2024-01-05" (some 1) "Food" "" "").2
      = Res.ok (runTrace emptyStore []).nextId :=
  ⟨by decide,
    (add_expense_fresh_id emptyStore [] (by decide) "2024-01-05" 1 "Food" "" "").1⟩

/-- Witness instantiating C4 at a concrete two-row store. -/
theorem list_expenses_range_order_witness :
    WF exStore ∧
    List.Pairwise (fun x y => y.date < x.date ∨ (x.date = y.date ∧ y.id < x.id))
      (list_expenses exStore "2024-01-01" "2024-12-31") :=
  ⟨by decide, (list_expenses_range_order exStore (by decide) "2024-01-01" "2024-12-31").2.2⟩

/-- Witness instantiating C6 at a concrete two-row store and id 1. -/
theorem edit_delete_frame_witness :
    WF exStore ∧ (∃ e ∈ exStore.expenses, e.id = 1) ∧
    (delete_expense exStore 1).1.expenses.length + 1 = exStore.expenses.length :=
  ⟨by decide, by decide,
    (edit_delete_frame exStore 1 "2024-01-06" 3 "Food" "" "" (by decide)
      (by decide)).2.2.2.2.2.2.2.2.2.2.2.2.2⟩

/-- Witness instantiating C3 with two concurrent calls and an explicit
fully-interleaved schedule (both upserts, then both increments). -/
theorem add_credit_no_lost_updates_witness :
    lookupUser emptyStore "u" = none ∧
    creditOf (applyCreditStep "u" 10 (applyCreditStep "u" 10 (applyCreditStep "u" 10
      (applyCreditStep "u" 10 emptyStore .upsert) .upsert) .incr) .incr) "u"
      = 10 * (2 : Nat) :=
  ⟨rfl,
    add_credit_no_lost_updates emptyStore 2 _ [[], []] rfl
      (Relation.ReflTransGen.head (SysStep.exec emptyStore [] [creditProg] .upsert [.incr])
        (Relation.ReflTransGen.head (SysStep.exec _ [[.incr]] [] .upsert [.incr])
          (Relation.ReflTransGen.head (SysStep.exec _ [] [[.incr]] .incr [])
            (Relation.ReflTransGen.head (SysStep.exec _ [[]] [] .incr [])
              Relation.ReflTransGen.refl))))
      (by simp)⟩
